import Mathlib

/-!
# Verification of the pymoo subset-selection example

Shallow embedding of the code in
`doc/source/customization/subset_selection.ipynb`:

* `SubsetProblem._evaluate`  →  `subsetEvaluate`
* `MySampling._do` (one row) →  `mySamplingOne`
* `BinaryCrossover._do` (one mating) → `binaryCrossoverDo`
* `MyMutation._do` (one row) →  `myMutationDo`

Candidates are boolean vectors (`List Bool`), weights are `List Nat`
(the notebook draws them with `np.random.randint(100)`, so they are
non-negative machine integers far below any overflow boundary).
Randomness is made explicit: every operator takes the random draw it
consumes (a permutation, or pick indices) as an argument; theorems
quantify over all admissible draws.
-/

namespace SubsetSel

/-- `np.where(x)[0]` for a boolean vector: the sorted list of indices
holding `true`.  (`x.getD i false` is `x[i]`, with `false` out of range;
all uses stay in range.) -/
def trueIdx (x : List Bool) : List Nat :=
  (List.range x.length).filter (fun i => x.getD i false)

/-- Python slice `l[:n]` where `n` may be negative (numpy's
`n_remaining = problem.n_max - np.sum(both_are_true)` can be negative):
a negative stop counts from the end. -/
def pyTake (n : Int) (l : List α) : List α :=
  if 0 ≤ n then l.take n.toNat else l.take (l.length - (-n).toNat)

/-- `L[x]` for a boolean mask `x`: the weights at the selected
positions, in order. -/
def maskSelect (L : List Nat) (x : List Bool) : List Nat :=
  (L.zip x).filterMap (fun p => if p.2 then some p.1 else none)

/-- The output dictionary of `SubsetProblem._evaluate`. -/
structure EvalOut where
  F : Nat
  G : Int
  deriving Repr, DecidableEq

/-- `SubsetProblem._evaluate`:
`out["F"] = np.sum(self.L[x])`,
`out["G"] = (self.n_max - np.sum(x)) ** 2`. -/
def subsetEvaluate (L : List Nat) (nmax : Nat) (x : List Bool) : EvalOut :=
  { F := (maskSelect L x).sum
    G := ((nmax : Int) - (x.count true : Int)) ^ 2 }

/-- One row of `MySampling._do`: start from `np.full(n_var, False)`,
draw a permutation `perm` of `range n_var` (passed in explicitly), and
set the first `n_max` drawn indices to `True`. -/
def mySamplingOne (nvar nmax : Nat) (perm : List Nat) : List Bool :=
  (perm.take nmax).foldl (fun a i => a.set i true) (List.replicate nvar false)

/-- One mating of `BinaryCrossover._do`: the offspring starts as the
positions selected by both parents (`np.logical_and`), then
`n_remaining = n_max - np.sum(both_are_true)` further positions are set
`True`, taken as the first `n_remaining` entries of a shuffle `Iperm`
of `I = np.where(np.logical_xor(p1, p2))[0]` (the shuffle is passed in
explicitly; numpy's negative-stop slice semantics are kept by
`pyTake`). -/
def binaryCrossoverDo (nmax : Nat) (p1 p2 : List Bool) (Iperm : List Nat) :
    List Bool :=
  (pyTake ((nmax : Int) - ((List.zipWith and p1 p2).count true : Int))
      Iperm).foldl
    (fun a i => a.set i true) (List.zipWith and p1 p2)

/-- Errors of the single-row mutation: `np.random.choice` raises when
asked to choose from an empty array. -/
inductive OpError where
  | MutationDegenerate
  deriving Repr, DecidableEq

/-- One row of `MyMutation._do`: compute `is_false` and `is_true` from
the input row, pick one entry of each (`np.random.choice`, here the
picks `cf`, `ct` index into those lists modulo their length), set the
false pick `True` and the true pick `False`.  `np.random.choice` on an
empty array raises, which the embedding returns as
`MutationDegenerate`. -/
def myMutationDo (x : List Bool) (cf ct : Nat) : Except OpError (List Bool) :=
  let isFalse := trueIdx (x.map (fun b => !b))
  let isTrue := trueIdx x
  if isFalse.isEmpty ∨ isTrue.isEmpty then
    .error .MutationDegenerate
  else
    let j := isFalse.getD (cf % isFalse.length) 0
    let k := isTrue.getD (ct % isTrue.length) 0
    .ok ((x.set j true).set k false)

/-- Sorting the weights ascending and summing the smallest `k`:
the brute-force optimum `np.sort(np.argsort(L)[:n_max])` of the
notebook's final cell. -/
def bruteForceSum (L : List Nat) (k : Nat) : Nat :=
  ((L.insertionSort (· ≤ ·)).take k).sum

end SubsetSel

namespace SubsetSel

/-! ## Basic lemmas -/

theorem count_true_replicate_false (n : Nat) :
    (List.replicate n false).count true = 0 := by
  simp [List.count_replicate]

theorem foldl_set_length (S : List Nat) (x : List Bool) :
    (S.foldl (fun a i => a.set i true) x).length = x.length := by
  induction S generalizing x with
  | nil => rfl
  | cons i S ih => simp [List.foldl_cons, ih]

theorem getD_set_self (x : List Bool) (i : Nat) (hi : i < x.length) :
    (x.set i true).getD i false = true := by
  simp [List.getD_eq_getElem?_getD, List.getElem?_set_self hi]

theorem getD_set_ne (x : List Bool) (i j : Nat) (hij : i ≠ j) :
    (x.set i true).getD j false = x.getD j false := by
  simp [List.getD_eq_getElem?_getD, List.getElem?_set_ne hij]

theorem foldl_set_getD (S : List Nat) (x : List Bool) (j : Nat)
    (hj : j < x.length) :
    (S.foldl (fun a i => a.set i true) x).getD j false
      = (x.getD j false || decide (j ∈ S)) := by
  induction S generalizing x with
  | nil => simp
  | cons i S ih =>
    rw [List.foldl_cons, ih _ (by simpa using hj)]
    by_cases hij : j = i
    · subst hij
      rw [getD_set_self x j hj]
      simp [List.mem_cons]
    · rw [getD_set_ne x i j (fun h => hij h.symm)]
      simp [List.mem_cons, hij]

theorem count_true_set_true (x : List Bool) (i : Nat) (hi : i < x.length)
    (hx : x.getD i false = false) :
    (x.set i true).count true = x.count true + 1 := by
  induction x generalizing i with
  | nil => simp at hi
  | cons b t ih =>
    cases i with
    | zero =>
      simp at hx
      simp [List.set_cons_zero, hx, List.count_cons]
    | succ i =>
      have h1 : (t.set i true).count true = t.count true + 1 :=
        ih i (by simpa using hi) (by simpa using hx)
      simp only [List.set_cons_succ, List.count_cons, h1]
      omega

theorem foldl_set_count (S : List Nat) (x : List Bool)
    (hnd : S.Nodup) (hmem : ∀ i ∈ S, i < x.length ∧ x.getD i false = false) :
    (S.foldl (fun a i => a.set i true) x).count true
      = x.count true + S.length := by
  induction S generalizing x with
  | nil => simp
  | cons i S ih =>
    have hi := hmem i (List.mem_cons_self i S)
    rw [List.foldl_cons,
      ih (x.set i true) (List.nodup_cons.mp hnd).2 ?_,
      count_true_set_true x i hi.1 hi.2]
    · simp only [List.length_cons]
      omega
    · intro j hj
      have hji : i ≠ j := fun h => (List.nodup_cons.mp hnd).1 (h ▸ hj)
      have hj' := hmem j (List.mem_cons_of_mem i hj)
      exact ⟨by simpa using hj'.1, by rw [getD_set_ne x i j hji]; exact hj'.2⟩

/-! ## Lemmas about `trueIdx` (the embedding of `np.where(x)[0]`) -/

theorem mem_trueIdx (x : List Bool) (i : Nat) :
    i ∈ trueIdx x ↔ i < x.length ∧ x.getD i false = true := by
  simp [trueIdx, List.mem_filter, List.mem_range, and_comm]

theorem trueIdx_nodup (x : List Bool) : (trueIdx x).Nodup :=
  (List.nodup_range _).filter _

theorem trueIdx_cons (b : Bool) (t : List Bool) :
    trueIdx (b :: t)
      = (if b then [0] else []) ++ (trueIdx t).map Nat.succ := by
  have hmapfil : (List.map Nat.succ (List.range t.length)).filter
        (fun i => (b :: t).getD i false)
      = ((List.range t.length).filter (fun i => t.getD i false)).map
          Nat.succ := by
    rw [List.filter_map]
    rfl
  unfold trueIdx
  rw [List.length_cons, List.range_succ_eq_map, List.filter_cons, hmapfil,
    List.getD_cons_zero]
  cases b <;> simp

theorem trueIdx_length (x : List Bool) :
    (trueIdx x).length = x.count true := by
  induction x with
  | nil => rfl
  | cons b t ih =>
    rw [trueIdx_cons, List.length_append, List.length_map, ih,
      List.count_cons]
    cases b <;> simp [Nat.add_comm]

/-! ## C1: the evaluation function -/

theorem maskSelect_sum (L : List Nat) (x : List Bool)
    (hlen : x.length = L.length) :
    (maskSelect L x).sum
      = ∑ i ∈ Finset.range L.length,
          (if x.getD i false = true then L.getD i 0 else 0) := by
  induction L generalizing x with
  | nil => simp [maskSelect]
  | cons a L ih =>
    cases x with
    | nil => simp at hlen
    | cons b x =>
      have hlen' : x.length = L.length := by simpa using hlen
      have hsum := ih x hlen'
      rw [List.length_cons, Finset.sum_range_succ']
      simp only [List.getD_cons_succ, List.getD_cons_zero]
      cases b
      · have hm : maskSelect (a :: L) (false :: x) = maskSelect L x := rfl
        rw [hm, hsum]
        simp
      · have hm : maskSelect (a :: L) (true :: x) = a :: maskSelect L x := rfl
        rw [hm, List.sum_cons, hsum]
        simp [Nat.add_comm]

end SubsetSel

namespace SubsetSel

/-- C1: for every boolean candidate vector `x` of length `n_var`,
`SubsetProblem._evaluate` returns `F` equal to the sum of the weights
`L` at the selected positions and `G = (n_max - #selected)^2`, and
`G = 0` iff exactly `n_max` positions are selected. -/
theorem subset_evaluate_spec (L : List Nat) (nmax : Nat) (x : List Bool)
    (hlen : x.length = L.length) :
    (subsetEvaluate L nmax x).F
        = ∑ i ∈ Finset.range L.length,
            (if x.getD i false = true then L.getD i 0 else 0)
      ∧ (subsetEvaluate L nmax x).G
          = ((nmax : Int) - (x.count true : Int)) ^ 2
      ∧ ((subsetEvaluate L nmax x).G = 0 ↔ x.count true = nmax) := by
  refine ⟨maskSelect_sum L x hlen, rfl, ?_⟩
  show ((nmax : Int) - (x.count true : Int)) ^ 2 = 0 ↔ _
  rw [pow_eq_zero_iff (by norm_num), sub_eq_zero]
  exact ⟨fun h => by exact_mod_cast h.symm, fun h => by exact_mod_cast h.symm⟩

/-- Witness for C1 at a concrete input. -/
theorem subset_evaluate_spec_witness :
    (subsetEvaluate [3, 5, 7] 2 [true, false, true]).F
        = ∑ i ∈ Finset.range 3,
            (if [true, false, true].getD i false = true
              then [3, 5, 7].getD i 0 else 0)
      ∧ (subsetEvaluate [3, 5, 7] 2 [true, false, true]).G
          = ((2 : Int) - (([true, false, true].count true : Nat) : Int)) ^ 2
      ∧ ((subsetEvaluate [3, 5, 7] 2 [true, false, true]).G = 0
          ↔ [true, false, true].count true = 2) :=
  subset_evaluate_spec [3, 5, 7] 2 [true, false, true] (by decide)

/-! ## Sampling: count of selected positions -/

theorem mySamplingOne_count (nvar nmax : Nat) (perm : List Nat)
    (hperm : List.Perm perm (List.range nvar)) (hle : nmax ≤ nvar) :
    (mySamplingOne nvar nmax perm).count true = nmax := by
  have hnd : perm.Nodup := hperm.nodup_iff.mpr (List.nodup_range nvar)
  have hlenp : perm.length = nvar := by
    simpa using hperm.length_eq
  have htake : (perm.take nmax).length = nmax := by
    rw [List.length_take, hlenp]
    omega
  rw [mySamplingOne,
    foldl_set_count (perm.take nmax) _ (hnd.sublist (List.take_sublist _ _))
      ?_, count_true_replicate_false, htake, Nat.zero_add]
  intro i hi
  have hmem : i ∈ perm := List.mem_of_mem_take hi
  have hilt : i < nvar := List.mem_range.mp (hperm.subset hmem)
  refine ⟨by simpa using hilt, ?_⟩
  simp [List.getD_eq_getElem?_getD, List.getElem?_replicate, hilt]

theorem mySamplingOne_length (nvar nmax : Nat) (perm : List Nat) :
    (mySamplingOne nvar nmax perm).length = nvar := by
  rw [mySamplingOne, foldl_set_length]
  simp

/-! ## Pointwise facts about `zipWith` on boolean vectors -/

theorem zipWith_getD (f : Bool → Bool → Bool) (p1 p2 : List Bool) (i : Nat)
    (h1 : i < p1.length) (h2 : i < p2.length) :
    (List.zipWith f p1 p2).getD i false
      = f (p1.getD i false) (p2.getD i false) := by
  have hz : i < (List.zipWith f p1 p2).length := by
    rw [List.length_zipWith]
    omega
  rw [List.getD_eq_getElem?_getD, List.getElem?_eq_getElem hz,
    List.getD_eq_getElem?_getD, List.getElem?_eq_getElem h1,
    List.getD_eq_getElem?_getD, List.getElem?_eq_getElem h2]
  simp [List.getElem_zipWith]

theorem count_xor_and (p1 p2 : List Bool) (hlen : p1.length = p2.length) :
    (List.zipWith Bool.xor p1 p2).count true
        + 2 * (List.zipWith and p1 p2).count true
      = p1.count true + p2.count true := by
  induction p1 generalizing p2 with
  | nil =>
    cases p2 with
    | nil => rfl
    | cons b t => simp at hlen
  | cons a s ih =>
    cases p2 with
    | nil => simp at hlen
    | cons b t =>
      have h := ih t (by simpa using hlen)
      cases a <;> cases b <;>
        simp only [List.zipWith_cons_cons, List.count_cons] <;>
        simp <;> omega

theorem count_and_le_left (p1 p2 : List Bool) :
    (List.zipWith and p1 p2).count true ≤ p1.count true := by
  induction p1 generalizing p2 with
  | nil => simp
  | cons a s ih =>
    cases p2 with
    | nil => simp
    | cons b t =>
      have h := ih t
      cases a <;> cases b <;>
        simp only [List.zipWith_cons_cons, List.count_cons] <;>
        simp <;> omega

/-! ## Mutation helpers -/

theorem count_true_map_not (x : List Bool) :
    (x.map (fun b => !b)).count true = x.count false := by
  induction x with
  | nil => rfl
  | cons b t ih => cases b <;> simp [List.count_cons, ih]

theorem count_true_set_false (x : List Bool) (k : Nat) (hk : k < x.length)
    (hx : x.getD k false = true) :
    (x.set k false).count true + 1 = x.count true := by
  induction x generalizing k with
  | nil => simp at hk
  | cons b t ih =>
    cases k with
    | zero =>
      simp at hx
      simp [List.set_cons_zero, hx, List.count_cons]
    | succ k =>
      have h1 : (t.set k false).count true + 1 = t.count true :=
        ih k (by simpa using hk) (by simpa using hx)
      simp only [List.set_cons_succ, List.count_cons]
      omega

theorem getD_mem_of_lt (l : List Nat) (i : Nat) (hi : i < l.length) :
    l.getD i 0 ∈ l := by
  rw [List.getD_eq_getElem?_getD, List.getElem?_eq_getElem hi]
  exact List.getElem_mem hi

theorem getD_map_not (x : List Bool) (j : Nat) (hj : j < x.length) :
    (x.map (fun b => !b)).getD j false = !(x.getD j false) := by
  have hj' : j < (x.map (fun b => !b)).length := by simpa using hj
  rw [List.getD_eq_getElem?_getD, List.getElem?_eq_getElem hj',
    List.getD_eq_getElem?_getD, List.getElem?_eq_getElem hj]
  simp

/-- The single-row mutation succeeds on any candidate with at least one
selected and one unselected position, and the swap preserves the count. -/
theorem myMutationDo_ok (x : List Bool) (cf ct : Nat)
    (hsel : 0 < x.count true) (hunsel : 0 < x.count false) :
    ∃ y, myMutationDo x cf ct = Except.ok y
      ∧ y.count true = x.count true := by
  have hlenF : (trueIdx (x.map (fun b => !b))).length = x.count false := by
    rw [trueIdx_length, count_true_map_not]
  have hlenT : (trueIdx x).length = x.count true := trueIdx_length x
  have hne : ¬((trueIdx (x.map (fun b => !b))).isEmpty
      ∨ (trueIdx x).isEmpty) := by
    rw [List.isEmpty_iff_length_eq_zero, List.isEmpty_iff_length_eq_zero,
      hlenF, hlenT]
    omega
  refine ⟨_, by rw [myMutationDo, if_neg hne], ?_⟩
  have hjmem : (trueIdx (x.map (fun b => !b))).getD
        (cf % (trueIdx (x.map (fun b => !b))).length) 0
      ∈ trueIdx (x.map (fun b => !b)) :=
    getD_mem_of_lt _ _ (Nat.mod_lt _ (by omega))
  have hkmem : (trueIdx x).getD (ct % (trueIdx x).length) 0 ∈ trueIdx x :=
    getD_mem_of_lt _ _ (Nat.mod_lt _ (by omega))
  set j := (trueIdx (x.map (fun b => !b))).getD
    (cf % (trueIdx (x.map (fun b => !b))).length) 0 with hjdef
  set k := (trueIdx x).getD (ct % (trueIdx x).length) 0 with hkdef
  obtain ⟨hjlt, hjval⟩ := (mem_trueIdx _ j).mp hjmem
  obtain ⟨hklt, hkval⟩ := (mem_trueIdx _ k).mp hkmem
  have hjlt' : j < x.length := by simpa using hjlt
  have hjfalse : x.getD j false = false := by
    rw [getD_map_not x j hjlt'] at hjval
    revert hjval
    cases x.getD j false <;> decide
  have hjk : j ≠ k := fun h => by
    rw [h, hkval] at hjfalse
    exact Bool.noConfusion hjfalse
  have hc1 : (x.set j true).count true = x.count true + 1 :=
    count_true_set_true x j hjlt' hjfalse
  have hk2 : (x.set j true).getD k false = true := by
    rw [getD_set_ne x j k hjk]
    exact hkval
  have hc2 : ((x.set j true).set k false).count true + 1
      = (x.set j true).count true :=
    count_true_set_false (x.set j true) k (by simpa using hklt) hk2
  omega

/-! ## Crossover helpers -/

theorem binaryCrossoverDo_eq_foldl (nmax : Nat) (p1 p2 : List Bool)
    (Iperm : List Nat)
    (hcb : (List.zipWith and p1 p2).count true ≤ nmax) :
    binaryCrossoverDo nmax p1 p2 Iperm
      = (Iperm.take (nmax - (List.zipWith and p1 p2).count true)).foldl
          (fun a i => a.set i true) (List.zipWith and p1 p2) := by
  have h0 : (0 : Int)
      ≤ (nmax : Int) - ((List.zipWith and p1 p2).count true : Int) := by
    omega
  rw [binaryCrossoverDo, pyTake, if_pos h0]
  congr 2
  omega

theorem xor_mem_and_false (p1 p2 : List Bool) (hlen : p1.length = p2.length)
    (i : Nat) (hi : i ∈ trueIdx (List.zipWith Bool.xor p1 p2)) :
    i < (List.zipWith and p1 p2).length
      ∧ (List.zipWith and p1 p2).getD i false = false := by
  obtain ⟨hlt, hx⟩ := (mem_trueIdx _ i).mp hi
  have h1 : i < p1.length := by
    rw [List.length_zipWith] at hlt
    omega
  have h2 : i < p2.length := by omega
  rw [zipWith_getD Bool.xor p1 p2 i h1 h2] at hx
  refine ⟨by rw [List.length_zipWith]; omega, ?_⟩
  rw [zipWith_getD and p1 p2 i h1 h2]
  revert hx
  cases p1.getD i false <;> cases p2.getD i false <;> decide

theorem binaryCrossoverDo_count (nmax : Nat) (p1 p2 : List Bool)
    (Iperm : List Nat) (hlen : p1.length = p2.length)
    (h1 : p1.count true = nmax) (h2 : p2.count true = nmax)
    (hIperm : List.Perm Iperm (trueIdx (List.zipWith Bool.xor p1 p2))) :
    (binaryCrossoverDo nmax p1 p2 Iperm).count true = nmax := by
  have hcb : (List.zipWith and p1 p2).count true ≤ nmax :=
    h1 ▸ count_and_le_left p1 p2
  have hxorcnt : (List.zipWith Bool.xor p1 p2).count true
      = 2 * (nmax - (List.zipWith and p1 p2).count true) := by
    have h := count_xor_and p1 p2 hlen
    omega
  have hIlen : Iperm.length
      = 2 * (nmax - (List.zipWith and p1 p2).count true) := by
    rw [hIperm.length_eq, trueIdx_length, hxorcnt]
  rw [binaryCrossoverDo_eq_foldl nmax p1 p2 Iperm hcb,
    foldl_set_count _ _
      ((hIperm.nodup_iff.mpr (trueIdx_nodup _)).sublist
        (List.take_sublist _ _))
      (fun i hi =>
        xor_mem_and_false p1 p2 hlen i
          (hIperm.subset (List.mem_of_mem_take hi))),
    List.length_take]
  omega

theorem zipWith_and_self (p : List Bool) : List.zipWith and p p = p := by
  induction p with
  | nil => rfl
  | cons b t ih => simp [List.zipWith_cons_cons, ih]

theorem trueIdx_xor_self (p : List Bool) :
    trueIdx (List.zipWith Bool.xor p p) = [] := by
  rw [List.eq_nil_iff_forall_not_mem]
  intro i hi
  obtain ⟨hlt, hx⟩ := (mem_trueIdx _ i).mp hi
  have hip : i < p.length := by
    rw [List.length_zipWith] at hlt
    omega
  rw [zipWith_getD Bool.xor p p i hip hip] at hx
  revert hx
  cases p.getD i false <;> decide

theorem pyTake_nil (n : Int) : pyTake n ([] : List α) = [] := by
  rw [pyTake]
  split <;> simp

end SubsetSel

namespace SubsetSel

/-- C2: every candidate produced by `MySampling`, every offspring of
`BinaryCrossover` from two feasible parents, and every output of
`MyMutation` on a non-degenerate candidate has exactly the target
number of selected positions (resp. the input's count, for mutation). -/
theorem operators_preserve_count :
    (∀ nvar nmax perm, List.Perm perm (List.range nvar) → nmax ≤ nvar →
        (mySamplingOne nvar nmax perm).count true = nmax)
  ∧ (∀ nmax p1 p2 Iperm, p1.length = p2.length →
        p1.count true = nmax → p2.count true = nmax →
        List.Perm Iperm (trueIdx (List.zipWith Bool.xor p1 p2)) →
        (binaryCrossoverDo nmax p1 p2 Iperm).count true = nmax)
  ∧ (∀ x cf ct, 0 < x.count true → 0 < x.count false →
        ∃ y, myMutationDo x cf ct = Except.ok y
          ∧ y.count true = x.count true) :=
  ⟨fun nvar nmax perm h hle => mySamplingOne_count nvar nmax perm h hle,
   fun nmax p1 p2 Iperm hl h1 h2 hI =>
     binaryCrossoverDo_count nmax p1 p2 Iperm hl h1 h2 hI,
   fun x cf ct hs hu => myMutationDo_ok x cf ct hs hu⟩

/-- Witness for C2 at concrete inputs. -/
theorem operators_preserve_count_witness :
    (mySamplingOne 3 2 [2, 0, 1]).count true = 2
  ∧ (binaryCrossoverDo 2 [true, true, false] [true, false, true]
      [2, 1]).count true = 2
  ∧ ∃ y, myMutationDo [true, false] 0 0 = Except.ok y
      ∧ y.count true = [true, false].count true :=
  ⟨operators_preserve_count.1 3 2 [2, 0, 1] (by decide) (by decide),
   operators_preserve_count.2.1 2 [true, true, false] [true, false, true]
     [2, 1] (by decide) (by decide) (by decide) (by decide),
   operators_preserve_count.2.2 [true, false] 0 0 (by decide) (by decide)⟩

/-- C6: every candidate produced by `MySampling` evaluates to
constraint violation zero. -/
theorem sampling_yields_feasible (L : List Nat) (nmax : Nat)
    (perm : List Nat) (hperm : List.Perm perm (List.range L.length))
    (hle : nmax ≤ L.length) :
    (subsetEvaluate L nmax (mySamplingOne L.length nmax perm)).G = 0 := by
  show ((nmax : Int)
    - ((mySamplingOne L.length nmax perm).count true : Int)) ^ 2 = 0
  rw [mySamplingOne_count L.length nmax perm hperm hle]
  simp

/-- Witness for C6 at a concrete input. -/
theorem sampling_yields_feasible_witness :
    (subsetEvaluate [5, 3, 9] 2 (mySamplingOne 3 2 [2, 0, 1])).G = 0 :=
  sampling_yields_feasible [5, 3, 9] 2 [2, 0, 1] (by decide) (by decide)

/-- C10: crossover of a candidate with itself is the identity,
whatever the candidate's selection count. -/
theorem binaryCrossoverDo_self (nmax : Nat) (p : List Bool)
    (Iperm : List Nat)
    (hIperm : List.Perm Iperm (trueIdx (List.zipWith Bool.xor p p))) :
    binaryCrossoverDo nmax p p Iperm = p := by
  rw [trueIdx_xor_self] at hIperm
  rw [binaryCrossoverDo, hIperm.eq_nil, pyTake_nil, List.foldl_nil,
    zipWith_and_self]

/-- Witness for C10 at a concrete input (note the candidate has one
selected position while `n_max = 5`). -/
theorem binaryCrossoverDo_self_witness :
    binaryCrossoverDo 5 [true, false] [true, false] [] = [true, false] :=
  binaryCrossoverDo_self 5 [true, false] [] (by decide)

/-- C3 counterexample: `BinaryCrossover` does not fail when the
symmetric difference is too small; with both parents selecting only
position 0 and `n_max = 2` it silently returns an offspring with a
single selected position. -/
theorem binaryCrossoverDo_no_failure_counterexample :
    binaryCrossoverDo 2 [true, false, false] [true, false, false] []
        = [true, false, false]
      ∧ [true, false, false].count true < 2 := by
  constructor
  · decide
  · decide

/-- C3 amended: when the symmetric difference has fewer positions than
`n_max − |intersection|`, `BinaryCrossover` silently truncates: it
emits an offspring selecting the intersection together with the whole
symmetric difference — strictly fewer than `n_max` positions — and no
error is raised (the notebook defines no `InfeasibleCrossoverState`). -/
theorem binaryCrossoverDo_truncates (nmax : Nat) (p1 p2 : List Bool)
    (Iperm : List Nat) (hlen : p1.length = p2.length)
    (hIperm : List.Perm Iperm (trueIdx (List.zipWith Bool.xor p1 p2)))
    (hshort : (List.zipWith and p1 p2).count true + Iperm.length < nmax) :
    (binaryCrossoverDo nmax p1 p2 Iperm).count true
        = (List.zipWith and p1 p2).count true + Iperm.length
      ∧ (binaryCrossoverDo nmax p1 p2 Iperm).count true < nmax := by
  have hcb : (List.zipWith and p1 p2).count true ≤ nmax := by omega
  have htake : Iperm.take (nmax - (List.zipWith and p1 p2).count true)
      = Iperm :=
    List.take_of_length_le (by omega)
  have hcount : (binaryCrossoverDo nmax p1 p2 Iperm).count true
      = (List.zipWith and p1 p2).count true + Iperm.length := by
    rw [binaryCrossoverDo_eq_foldl nmax p1 p2 Iperm hcb, htake,
      foldl_set_count _ _ (hIperm.nodup_iff.mpr (trueIdx_nodup _))
        (fun i hi => xor_mem_and_false p1 p2 hlen i (hIperm.subset hi))]
  exact ⟨hcount, by omega⟩

/-- Witness for the amended C3 at a concrete input. -/
theorem binaryCrossoverDo_truncates_witness :
    (binaryCrossoverDo 2 [true, false, false] [true, false, false]
        []).count true
      = (List.zipWith and [true, false, false]
          [true, false, false]).count true + ([] : List Nat).length
    ∧ (binaryCrossoverDo 2 [true, false, false] [true, false, false]
        []).count true < 2 :=
  binaryCrossoverDo_truncates 2 [true, false, false] [true, false, false]
    [] (by decide) (by decide) (by decide)

/-- A `getD _ false` that returns `true` must be in range. -/
theorem getD_true_lt (x : List Bool) (i : Nat)
    (h : x.getD i false = true) : i < x.length := by
  by_contra hge
  rw [List.getD_eq_getElem?_getD,
    List.getElem?_eq_none (by omega)] at h
  exact Bool.noConfusion h

/-- In a duplicate-free list, the elements belonging to its `n`-prefix
number exactly the prefix length. -/
theorem countP_mem_take (l : List Nat) (n : Nat) (hnd : l.Nodup) :
    l.countP (fun i => decide (i ∈ l.take n)) = (l.take n).length := by
  have hsplit : l.take n ++ l.drop n = l := List.take_append_drop n l
  have hnd' : (l.take n ++ l.drop n).Nodup := by rwa [hsplit]
  have hdisj : List.Disjoint (l.take n) (l.drop n) :=
    List.disjoint_of_nodup_append hnd'
  have h1 : (l.take n).countP (fun i => decide (i ∈ l.take n))
      = (l.take n).length :=
    List.countP_eq_length.mpr (fun a ha => by simpa using ha)
  have h2 : (l.drop n).countP (fun i => decide (i ∈ l.take n)) = 0 :=
    List.countP_eq_zero.mpr (fun a ha => by
      simpa using fun hmem => hdisj hmem ha)
  have hL : l.countP (fun i => decide (i ∈ l.take n))
      = (l.take n ++ l.drop n).countP (fun i => decide (i ∈ l.take n)) := by
    rw [hsplit]
  rw [hL, List.countP_append, h1, h2]
  omega

/-- C5: from two feasible parents the offspring selects the whole
intersection, exactly `n_max − |intersection|` positions of the
symmetric difference, and nothing outside the union. -/
theorem binaryCrossoverDo_structure (nmax : Nat) (p1 p2 : List Bool)
    (Iperm : List Nat) (hlen : p1.length = p2.length)
    (h1 : p1.count true = nmax) (h2 : p2.count true = nmax)
    (hIperm : List.Perm Iperm (trueIdx (List.zipWith Bool.xor p1 p2))) :
    (∀ i, (List.zipWith and p1 p2).getD i false = true →
        (binaryCrossoverDo nmax p1 p2 Iperm).getD i false = true)
  ∧ (trueIdx (List.zipWith Bool.xor p1 p2)).countP
        (fun i => (binaryCrossoverDo nmax p1 p2 Iperm).getD i false)
      = nmax - (List.zipWith and p1 p2).count true
  ∧ (∀ i, (binaryCrossoverDo nmax p1 p2 Iperm).getD i false = true →
        (List.zipWith and p1 p2).getD i false = true
          ∨ (List.zipWith Bool.xor p1 p2).getD i false = true) := by
  have hcb : (List.zipWith and p1 p2).count true ≤ nmax :=
    h1 ▸ count_and_le_left p1 p2
  have heq := binaryCrossoverDo_eq_foldl nmax p1 p2 Iperm hcb
  have hIlen : Iperm.length
      = 2 * (nmax - (List.zipWith and p1 p2).count true) := by
    have h := count_xor_and p1 p2 hlen
    rw [hIperm.length_eq, trueIdx_length]
    omega
  have hIndS : Iperm.Nodup := hIperm.nodup_iff.mpr (trueIdx_nodup _)
  have hchar : ∀ i, i < (List.zipWith and p1 p2).length →
      (binaryCrossoverDo nmax p1 p2 Iperm).getD i false
        = ((List.zipWith and p1 p2).getD i false
            || decide (i ∈ Iperm.take
              (nmax - (List.zipWith and p1 p2).count true))) := by
    intro i hi
    rw [heq]
    exact foldl_set_getD _ _ i hi
  refine ⟨?_, ?_, ?_⟩
  · intro i hbt
    rw [hchar i (getD_true_lt _ i hbt), hbt, Bool.true_or]
  · have hcongr : (trueIdx (List.zipWith Bool.xor p1 p2)).countP
        (fun i => (binaryCrossoverDo nmax p1 p2 Iperm).getD i false)
      = (trueIdx (List.zipWith Bool.xor p1 p2)).countP
        (fun i => decide (i ∈ Iperm.take
          (nmax - (List.zipWith and p1 p2).count true))) := by
      refine List.countP_congr (fun i hi => ?_)
      obtain ⟨hlt, hfalse⟩ := xor_mem_and_false p1 p2 hlen i hi
      rw [hchar i hlt, hfalse, Bool.false_or]
    rw [hcongr, ← hIperm.countP_eq, countP_mem_take Iperm _ hIndS,
      List.length_take]
    omega
  · intro i hc
    have hilt : i < (List.zipWith and p1 p2).length := by
      have := getD_true_lt _ i hc
      rwa [heq, foldl_set_length] at this
    rw [hchar i hilt] at hc
    rcases Bool.or_eq_true_iff.mp hc with hbt | hmem
    · exact Or.inl hbt
    · right
      have hiI : i ∈ trueIdx (List.zipWith Bool.xor p1 p2) :=
        hIperm.subset (List.mem_of_mem_take (by simpa using hmem))
      exact ((mem_trueIdx _ i).mp hiI).2

/-- Witness for C5 at concrete inputs. -/
theorem binaryCrossoverDo_structure_witness :
    (∀ i, (List.zipWith and [true, true, false]
        [true, false, true]).getD i false = true →
        (binaryCrossoverDo 2 [true, true, false] [true, false, true]
          [2, 1]).getD i false = true)
  ∧ (trueIdx (List.zipWith Bool.xor [true, true, false]
        [true, false, true])).countP
        (fun i => (binaryCrossoverDo 2 [true, true, false]
          [true, false, true] [2, 1]).getD i false)
      = 2 - (List.zipWith and [true, true, false]
          [true, false, true]).count true
  ∧ (∀ i, (binaryCrossoverDo 2 [true, true, false] [true, false, true]
        [2, 1]).getD i false = true →
        (List.zipWith and [true, true, false]
          [true, false, true]).getD i false = true
          ∨ (List.zipWith Bool.xor [true, true, false]
              [true, false, true]).getD i false = true) :=
  binaryCrossoverDo_structure 2 [true, true, false] [true, false, true]
    [2, 1] (by decide) (by decide) (by decide) (by decide)

/-- C4: `MyMutation` fails (the embedded `MutationDegenerate` stands
for `np.random.choice` raising on an empty pool) exactly when the
candidate has zero selected or zero unselected positions, and succeeds
on every other candidate. -/
theorem myMutationDo_degenerate_iff (x : List Bool) (cf ct : Nat) :
    (myMutationDo x cf ct = Except.error OpError.MutationDegenerate
      ↔ (x.count true = 0 ∨ x.count false = 0))
  ∧ (0 < x.count true → 0 < x.count false →
      ∃ y, myMutationDo x cf ct = Except.ok y) := by
  have hlenF : (trueIdx (x.map (fun b => !b))).length = x.count false := by
    rw [trueIdx_length, count_true_map_not]
  have hlenT : (trueIdx x).length = x.count true := trueIdx_length x
  constructor
  · constructor
    · intro herr
      by_cases hc : (trueIdx (x.map (fun b => !b))).isEmpty
          ∨ (trueIdx x).isEmpty
      · rw [List.isEmpty_iff_length_eq_zero,
          List.isEmpty_iff_length_eq_zero, hlenF, hlenT] at hc
        omega
      · rw [myMutationDo, if_neg hc] at herr
        exact Except.noConfusion herr
    · intro hc
      have hc' : (trueIdx (x.map (fun b => !b))).isEmpty
          ∨ (trueIdx x).isEmpty := by
        rw [List.isEmpty_iff_length_eq_zero,
          List.isEmpty_iff_length_eq_zero, hlenF, hlenT]
        omega
      rw [myMutationDo, if_pos hc']
  · intro hs hu
    obtain ⟨y, hy, _⟩ := myMutationDo_ok x cf ct hs hu
    exact ⟨y, hy⟩

/-- Witness for C4: a degenerate candidate (all selected) errors, a
non-degenerate one succeeds. -/
theorem myMutationDo_degenerate_iff_witness :
    myMutationDo [true, true] 0 0
        = Except.error OpError.MutationDegenerate
      ∧ ∃ y, myMutationDo [true, false] 1 1 = Except.ok y :=
  ⟨(myMutationDo_degenerate_iff [true, true] 0 0).1.mpr
      (Or.inr (by decide)),
   (myMutationDo_degenerate_iff [true, false] 1 1).2
      (by decide) (by decide)⟩

/-! ## C7: the sorted prefix lower-bounds every selection -/

theorem maskSelect_sublist (L : List Nat) (x : List Bool) :
    List.Sublist (maskSelect L x) L := by
  induction L generalizing x with
  | nil => simp [maskSelect]
  | cons a L ih =>
    cases x with
    | nil => simp [maskSelect]
    | cons b x =>
      cases b
      · have hm : maskSelect (a :: L) (false :: x) = maskSelect L x := rfl
        rw [hm]
        exact (ih x).cons a
      · have hm : maskSelect (a :: L) (true :: x)
            = a :: maskSelect L x := rfl
        rw [hm]
        exact (ih x).cons₂ a

theorem maskSelect_length (L : List Nat) (x : List Bool)
    (hlen : x.length = L.length) :
    (maskSelect L x).length = x.count true := by
  induction L generalizing x with
  | nil =>
    cases x with
    | nil => rfl
    | cons b x => simp at hlen
  | cons a L ih =>
    cases x with
    | nil => simp at hlen
    | cons b x =>
      have h := ih x (by simpa using hlen)
      cases b
      · have hm : maskSelect (a :: L) (false :: x) = maskSelect L x := rfl
        rw [hm, h, List.count_cons]
        simp
      · have hm : maskSelect (a :: L) (true :: x)
            = a :: maskSelect L x := rfl
        rw [hm, List.length_cons, h, List.count_cons]
        simp

/-- Over sorted lists, the sum of the `|s|`-prefix of `t` bounds the
sum of any sub-permutation `s` of `t` from below. -/
theorem sorted_take_sum_le (t : List Nat) :
    ∀ s : List Nat, List.Sorted (· ≤ ·) t → List.Sorted (· ≤ ·) s →
      List.Subperm s t → (t.take s.length).sum ≤ s.sum := by
  induction t with
  | nil =>
    intro s _ _ hsp
    rw [List.subperm_nil.mp hsp]
    simp
  | cons b t ih =>
    intro s hst hss hsp
    cases s with
    | nil => simp
    | cons a s' =>
      have hamem : a ∈ b :: t := hsp.subset (List.mem_cons_self a s')
      have hb_le : b ≤ a := by
        rcases List.mem_cons.mp hamem with h | h
        · omega
        · exact (List.sorted_cons.mp hst).1 a h
      have hs' : List.Subperm s' t := by
        by_cases hab : a = b
        · subst hab
          exact (List.subperm_cons a).mp hsp
        · have hbs : b ∉ s' := fun hmem =>
            hab (le_antisymm ((List.sorted_cons.mp hss).1 b hmem) hb_le)
          have hbns : b ∉ a :: s' := fun h => by
            rcases List.mem_cons.mp h with h | h
            · exact hab h.symm
            · exact hbs h
          have h1 := hsp.erase b
          rw [List.erase_cons_head, List.erase_of_not_mem hbns] at h1
          exact List.Subperm.cons_self.trans h1
      have hsum := ih s' (List.sorted_cons.mp hst).2
        (List.sorted_cons.mp hss).2 hs'
      rw [List.length_cons, List.take_succ_cons, List.sum_cons,
        List.sum_cons]
      omega

/-- C7: every candidate with exactly `n_max` selected positions has an
objective at least the sum of the `n_max` smallest weights; the
brute-force value therefore lower-bounds any reported feasible
objective. -/
theorem bruteForce_le_objective (L : List Nat) (nmax : Nat)
    (x : List Bool) (hlen : x.length = L.length)
    (hcnt : x.count true = nmax) :
    bruteForceSum L nmax ≤ (subsetEvaluate L nmax x).F := by
  have hsub : List.Subperm (maskSelect L x) L :=
    (maskSelect_sublist L x).subperm
  have hchain : List.Subperm
      (List.insertionSort (· ≤ ·) (maskSelect L x))
      (List.insertionSort (· ≤ ·) L) :=
    ((List.perm_insertionSort _ _).subperm.trans hsub).trans
      (List.perm_insertionSort (· ≤ ·) L).symm.subperm
  have hlen' : (List.insertionSort (· ≤ ·) (maskSelect L x)).length
      = nmax := by
    rw [(List.perm_insertionSort _ _).length_eq,
      maskSelect_length L x hlen, hcnt]
  have hmain := sorted_take_sum_le (List.insertionSort (· ≤ ·) L)
    (List.insertionSort (· ≤ ·) (maskSelect L x))
    (List.sorted_insertionSort _ _) (List.sorted_insertionSort _ _)
    hchain
  rw [hlen'] at hmain
  have hsumeq : (List.insertionSort (· ≤ ·) (maskSelect L x)).sum
      = (maskSelect L x).sum :=
    (List.perm_insertionSort _ _).sum_eq
  rw [hsumeq] at hmain
  exact hmain

/-- Witness for C7 at a concrete input. -/
theorem bruteForce_le_objective_witness :
    bruteForceSum [3, 1, 2] 2 ≤ (subsetEvaluate [3, 1, 2] 2
      [true, true, false]).F :=
  bruteForce_le_objective [3, 1, 2] 2 [true, true, false]
    (by decide) (by decide)

/-! ## C9: scenario 1 and its weight vector

The notebook draws the weights with `np.random.seed(1)` followed by
one hundred calls of `np.random.randint(100)`.  numpy's legacy
`RandomState` is not part of the shown sources, so it is embedded here
from its specification: the 32-bit Mersenne Twister MT19937 with the
masked-rejection scheme for bounded integers (mask `127`, redraw while
the masked 32-bit word exceeds `99`). -/

/-- Modelled from the spec: MT19937 state initialisation
(`mt[i] = 1812433253 * (mt[i-1] xor (mt[i-1] >> 30)) + i mod 2^32`),
part of the numpy randomness backing `np.random.seed(1)` that is
absent from `src/`. -/
def mtInitAux : Nat → Nat → Nat → List Nat
  | 0, _, _ => []
  | n + 1, i, prev =>
    let cur := (1812433253 * (prev ^^^ (prev >>> 30)) + i) % 4294967296
    cur :: mtInitAux n (i + 1) cur

/-- Modelled from the spec: the full 624-word MT19937 state seeded with
`seed`. -/
def mtInit (seed : Nat) : List Nat :=
  (seed % 4294967296) :: mtInitAux 623 1 (seed % 4294967296)

/-- Modelled from the spec: one in-place step of the MT19937 twist
(constants `0x80000000`, `0x7fffffff`, `0x9908b0df`). -/
def twistStep (mt : List Nat) (i : Nat) : List Nat :=
  let y := (mt.getD i 0 &&& 2147483648) |||
    (mt.getD ((i + 1) % 624) 0 &&& 2147483647)
  let v := (mt.getD ((i + 397) % 624) 0) ^^^ (y >>> 1) ^^^
    (if y % 2 = 1 then 2567483615 else 0)
  mt.set i v

/-- Modelled from the spec: a full MT19937 twist round. -/
def mtTwist (mt : List Nat) : List Nat :=
  (List.range 624).foldl twistStep mt

/-- Modelled from the spec: the MT19937 tempering transform (constants
`0x9d2c5680`, `0xefc60000`). -/
def mtTemper (y : Nat) : Nat :=
  let y1 := y ^^^ (y >>> 11)
  let y2 := y1 ^^^ ((y1 <<< 7) &&& 2636928640)
  let y3 := y2 ^^^ ((y2 <<< 15) &&& 4022730752)
  y3 ^^^ (y3 >>> 18)

/-- Modelled from the spec: the first `n` 32-bit outputs after seeding
(`n ≤ 624`, one twist round suffices for the notebook's 127 draws). -/
def mtOutputs (seed n : Nat) : List Nat :=
  ((mtTwist (mtInit seed)).take n).map mtTemper

/-- Modelled from the spec: `np.random.randint(100)` masked rejection
over a stream of 32-bit draws (mask `127`, keep values `≤ 99`). -/
def randintsFrom : List Nat → List Nat
  | [] => []
  | d :: rest =>
    let v := d &&& 127
    if v ≤ 99 then v :: randintsFrom rest else randintsFrom rest

/-- The weight list of the notebook:
`np.random.seed(1); L = [np.random.randint(100) for _ in range(100)]`.
127 raw draws produce exactly the 100 accepted values. -/
def weightsSeed1 : List Nat := randintsFrom (mtOutputs 1 127)

/-- Modelled from the spec: the recorded outcome of scenario 1
(`minimize` with seed 1, `pop_size` 100, 60 generations) — best
objective 36 with selected indices
`{5, 9, 12, 31, 36, 37, 47, 52, 68, 99}`; the generational engine that
produced it is not part of `src/`. -/
def scenario1Result : Nat × List Nat :=
  (36, [5, 9, 12, 31, 36, 37, 47, 52, 68, 99])

/-- The boolean candidate selecting a given index set. -/
def subsetOfIndices (n : Nat) (idx : List Nat) : List Bool :=
  (List.range n).map (fun i => decide (i ∈ idx))

set_option maxRecDepth 100000

/-- The MT19937-derived weight list, evaluated. -/
theorem weightsSeed1_eq : weightsSeed1 = [37, 12, 72, 9, 75, 5, 79, 64,
    16, 1, 76, 71, 6, 25, 50, 20, 18, 84, 11, 28, 29, 14, 50, 68, 87, 87,
    94, 96, 86, 13, 9, 7, 63, 61, 22, 57, 1, 0, 60, 81, 8, 88, 13, 47, 72,
    30, 71, 3, 70, 21, 49, 57, 3, 68, 24, 43, 76, 26, 52, 80, 41, 82, 15,
    64, 68, 25, 98, 87, 7, 26, 25, 22, 9, 67, 23, 27, 37, 57, 83, 38, 8,
    32, 34, 10, 23, 15, 87, 25, 71, 92, 74, 62, 46, 32, 88, 23, 55, 65,
    77, 3] := by decide

/-- C9: for the weights drawn from numpy seed 1 (length 100), the
recorded scenario-1 result — best objective 36 at index set
`{5, 9, 12, 31, 36, 37, 47, 52, 68, 99}` — is feasible, achieves the
brute-force optimum obtained by sorting `L` and summing the 10
smallest weights, and its indices are exactly a set of 10 smallest
weights. -/
theorem scenario1_matches_bruteForce :
    weightsSeed1.length = 100
  ∧ bruteForceSum weightsSeed1 10 = scenario1Result.1
  ∧ (subsetEvaluate weightsSeed1 10
      (subsetOfIndices 100 scenario1Result.2)).F = scenario1Result.1
  ∧ (subsetEvaluate weightsSeed1 10
      (subsetOfIndices 100 scenario1Result.2)).G = 0
  ∧ scenario1Result.2.all (fun i => (List.range 100).all (fun j =>
      decide (j ∈ scenario1Result.2)
        || decide (weightsSeed1.getD i 0 ≤ weightsSeed1.getD j 0)))
      = true := by
  refine ⟨?_, ?_, ?_, ?_, ?_⟩ <;> rw [weightsSeed1_eq] <;> decide

/-! ## C8: the seeded generational loop

The `minimize` driver itself (pymoo's generational engine) is not part
of the shown sources; following the spec it is modelled here with a
single explicit random source threaded through sampling, parent
pairing, the crossover shuffle and the mutation picks (spec §5), the
pool merge, first-seen duplicate elimination, and (CV, F)-lexicographic
survival truncation (spec §4.6–4.8), reusing the notebook's operators
embedded above.  A generation step exists only when no mutation fails
(spec §7: failures abort the run and yield no Result). -/

/-- Modelled from the spec: run configuration (weights, target count,
population size). -/
structure GAConfig where
  L : List Nat
  nmax : Nat
  popSize : Nat

/-- Modelled from the spec: the single seeded deterministic random
source — a 64-bit linear congruential generator. -/
def rngNext (s : Nat) : Nat :=
  (6364136223846793005 * s + 1442695040888963407) % 18446744073709551616

/-- Draw a value below `bound` together with the successor rng state. -/
def drawBelow (s bound : Nat) : Nat × Nat :=
  let s' := rngNext s
  (if bound = 0 then 0 else s' % bound, s')

/-- Modelled from the spec: rng-driven permutation draw
(selection-sampling over the remaining elements). -/
def drawPermAux : Nat → Nat → List Nat → List Nat × Nat
  | 0, s, _ => ([], s)
  | n + 1, s, rem =>
    let p := drawBelow s rem.length
    let rest := drawPermAux n p.2 (rem.eraseIdx p.1)
    (rem.getD p.1 0 :: rest.1, rest.2)

def drawPerm (s : Nat) (l : List Nat) : List Nat × Nat :=
  drawPermAux l.length s l

/-- Modelled from the spec: initial sampling of `n` candidates, each
from a fresh rng-drawn permutation (`MySampling`). -/
def sampleAux (cfg : GAConfig) : Nat → Nat → List (List Bool) × Nat
  | 0, s => ([], s)
  | n + 1, s =>
    let p := drawPerm s (List.range cfg.L.length)
    let rest := sampleAux cfg n p.2
    (mySamplingOne cfg.L.length cfg.nmax p.1 :: rest.1, rest.2)

/-- Modelled from the spec: one offspring — crossover with an
rng-drawn shuffle of the symmetric difference, then mutation with
rng-drawn picks. -/
def offspringOf (cfg : GAConfig) (s : Nat) (p1 p2 : List Bool) :
    Except OpError (List Bool) × Nat :=
  let shuffled := drawPerm s (trueIdx (List.zipWith Bool.xor p1 p2))
  let c := binaryCrossoverDo cfg.nmax p1 p2 shuffled.1
  let s1 := rngNext shuffled.2
  let s2 := rngNext s1
  (myMutationDo c s1 s2, s2)

/-- Modelled from the spec: `n` offspring from uniformly rng-paired
parents; any mutation failure aborts with its error. -/
def produceOffspring (cfg : GAConfig) (pop : List (List Bool)) :
    Nat → Nat → Except OpError (List (List Bool)) × Nat
  | 0, s => (Except.ok [], s)
  | n + 1, s =>
    let i1 := drawBelow s pop.length
    let i2 := drawBelow i1.2 pop.length
    let off := offspringOf cfg i2.2 (pop.getD i1.1 []) (pop.getD i2.1 [])
    let rest := produceOffspring cfg pop n off.2
    (match off.1, rest.1 with
      | Except.ok c, Except.ok cs => Except.ok (c :: cs)
      | Except.error e, _ => Except.error e
      | Except.ok _, Except.error e => Except.error e, rest.2)

def cvOf (cfg : GAConfig) (x : List Bool) : Int :=
  (subsetEvaluate cfg.L cfg.nmax x).G

def fOf (cfg : GAConfig) (x : List Bool) : Nat :=
  (subsetEvaluate cfg.L cfg.nmax x).F

/-- Modelled from the spec: duplicate elimination preserving first-seen
order. -/
def dedupFirstAux (seen : List (List Bool)) :
    List (List Bool) → List (List Bool)
  | [] => []
  | x :: rest =>
    if x ∈ seen then dedupFirstAux seen rest
    else x :: dedupFirstAux (x :: seen) rest

def dedupFirst (l : List (List Bool)) : List (List Bool) :=
  dedupFirstAux [] l

/-- Modelled from the spec: survival — stable sort of the pool by
(CV, F) lexicographic minimization, truncated to `popSize`. -/
def survive (cfg : GAConfig) (pool : List (List Bool)) :
    List (List Bool) :=
  (pool.insertionSort (fun x y => cvOf cfg x < cvOf cfg y
    ∨ (cvOf cfg x = cvOf cfg y ∧ fOf cfg x ≤ fOf cfg y))).take cfg.popSize

/-- Modelled from the spec: one per-generation progress line
(generation index, cumulative evaluations, min/avg constraint
violation, best/avg objective). -/
structure GenReport where
  gen : Nat
  nEval : Nat
  cvMin : Int
  cvAvg : Rat
  fOpt : Nat
  fAvg : Rat
  deriving Repr, DecidableEq

def mkReport (cfg : GAConfig) (gen nEval : Nat)
    (pop : List (List Bool)) : GenReport :=
  let cvs := pop.map (cvOf cfg)
  let fs := pop.map (fOf cfg)
  { gen := gen, nEval := nEval
    cvMin := cvs.foldr min (cvs.headD 0)
    cvAvg := (cvs.sum : Rat) / (pop.length : Rat)
    fOpt := fs.foldr min (fs.headD 0)
    fAvg := ((fs.sum : Nat) : Rat) / (pop.length : Rat) }

/-- Modelled from the spec: the driver state — rng, population,
generation counter, cumulative evaluations, report history. -/
structure GAState where
  rng : Nat
  pop : List (List Bool)
  gen : Nat
  nEval : Nat
  reports : List GenReport
  deriving Repr, DecidableEq

/-- Modelled from the spec: seed the rng, sample and evaluate the
initial population, report generation 1. -/
def initState (cfg : GAConfig) (seed : Nat) : GAState :=
  let p := sampleAux cfg cfg.popSize seed
  { rng := p.2, pop := p.1, gen := 1, nEval := cfg.popSize
    reports := [mkReport cfg 1 cfg.popSize p.1] }

/-- Modelled from the spec: one generation — offspring from the seeded
source, merge, duplicate elimination, survival, report.  Relational:
a step exists only when all mutations succeed. -/
inductive GAStep (cfg : GAConfig) : GAState → GAState → Prop where
  | step (st : GAState) (offs : List (List Bool)) (rng' : Nat)
      (newpop : List (List Bool))
      (hoff : produceOffspring cfg st.pop cfg.popSize st.rng
          = (Except.ok offs, rng'))
      (hsurv : newpop = survive cfg (dedupFirst (st.pop ++ offs))) :
      GAStep cfg st
        { rng := rng', pop := newpop, gen := st.gen + 1
          nEval := st.nEval + cfg.popSize
          reports := st.reports
            ++ [mkReport cfg (st.gen + 1) (st.nEval + cfg.popSize)
                  newpop] }

/-- `n` generations of the loop. -/
inductive GARun (cfg : GAConfig) : GAState → Nat → GAState → Prop where
  | done (st : GAState) : GARun cfg st 0 st
  | more (st st' st'' : GAState) (n : Nat) (h1 : GAStep cfg st st')
      (h2 : GARun cfg st' n st'') : GARun cfg st (n + 1) st''

theorem gaStep_deterministic (cfg : GAConfig) (s t1 t2 : GAState)
    (h1 : GAStep cfg s t1) (h2 : GAStep cfg s t2) : t1 = t2 := by
  cases h1 with
  | step o1 r1 p1 hoff1 hsurv1 =>
    cases h2 with
    | step o2 r2 p2 hoff2 hsurv2 =>
      rw [hoff1] at hoff2
      injection hoff2 with ho hr
      injection ho with ho
      subst ho
      subst hr
      subst hsurv1
      subst hsurv2
      rfl

theorem gaRun_deterministic (cfg : GAConfig) (s : GAState) (n : Nat)
    (t1 t2 : GAState) (h1 : GARun cfg s n t1) (h2 : GARun cfg s n t2) :
    t1 = t2 := by
  induction h1 generalizing t2 with
  | done st => cases h2 with | done => rfl
  | more st st' st'' k hstep hrun ih =>
    cases h2 with
    | more _ u' _ _ hstep2 hrun2 =>
      have he : st' = u' := gaStep_deterministic cfg st st' u' hstep hstep2
      subst he
      exact ih t2 hrun2

/-- C8: two runs of the modelled `minimize` loop with identical seed,
configuration (`pop_size`, `target_count`, weights) and generation
bound reach identical states — in particular the same resulting
population and identical per-generation report sequences; every
stochastic choice is drawn from the single seeded source threaded
through the state. -/
theorem minimize_deterministic (cfg : GAConfig)
    (seed1 seed2 nGen : Nat) (t1 t2 : GAState) (hseed : seed1 = seed2)
    (h1 : GARun cfg (initState cfg seed1) nGen t1)
    (h2 : GARun cfg (initState cfg seed2) nGen t2) :
    t1.pop = t2.pop ∧ t1.reports = t2.reports := by
  subst hseed
  have he := gaRun_deterministic cfg (initState cfg seed1) nGen t1 t2 h1 h2
  rw [he]
  exact ⟨rfl, rfl⟩

/-- A small concrete configuration for exercising the loop. -/
def c8cfg : GAConfig := ⟨[1, 2], 1, 1⟩

/-- The state after one generation of the modelled loop on `c8cfg`
from seed 0. -/
def c8final : GAState :=
  { rng := 10346034117385188870
    pop := survive c8cfg
      (dedupFirst ((initState c8cfg 0).pop ++ [[true, false]]))
    gen := (initState c8cfg 0).gen + 1
    nEval := (initState c8cfg 0).nEval + c8cfg.popSize
    reports := (initState c8cfg 0).reports
      ++ [mkReport c8cfg ((initState c8cfg 0).gen + 1)
            ((initState c8cfg 0).nEval + c8cfg.popSize)
            (survive c8cfg
              (dedupFirst ((initState c8cfg 0).pop
                ++ [[true, false]])))] }

/-- Witness for C8: a concrete one-generation run exists and the
determinism theorem applies to it. -/
theorem minimize_deterministic_witness :
    c8final.pop = c8final.pop ∧ c8final.reports = c8final.reports :=
  minimize_deterministic c8cfg 0 0 1 c8final c8final rfl
    (GARun.more _ _ _ 0
      (GAStep.step (initState c8cfg 0) [[true, false]]
        10346034117385188870
        (survive c8cfg
          (dedupFirst ((initState c8cfg 0).pop ++ [[true, false]])))
        rfl rfl)
      (GARun.done _))
    (GARun.more _ _ _ 0
      (GAStep.step (initState c8cfg 0) [[true, false]]
        10346034117385188870
        (survive c8cfg
          (dedupFirst ((initState c8cfg 0).pop ++ [[true, false]])))
        rfl rfl)
      (GARun.done _))

end SubsetSel
